import Mathlib

/-!
Verification of the image-pinning pipeline of `main.py` (serverless-midstream-builds).

The program text is embedded shallowly: Python strings become `List Char`,
Python's `str.replace`, `str.strip`, `str.find`, `readlines`, `split` and
`sorted(list(set(...)))` become the executable Lean functions below, and the
file-writing / docker-calling glue of `execute` becomes explicit state passing
over the manifest text, with the external docker store passed as a parameter.
-/

namespace SMB

set_option maxRecDepth 20000

/-- Characters treated as whitespace by Python's `str.strip()` (ASCII range). -/
def pyIsSpace (c : Char) : Bool :=
  c = ' ' || c = '\t' || c = '\n' || c = '\r' || c = '\x0b' || c = '\x0c'

/-- Python `line.strip()`: drop whitespace from both ends. -/
def pyStrip (l : List Char) : List Char :=
  ((l.dropWhile pyIsSpace).reverse.dropWhile pyIsSpace).reverse

/-- Python `f.readlines()`: split the text into lines, each line keeping its
trailing newline character; a final fragment without a newline is kept too. -/
def readlines : List Char → List (List Char)
  | [] => []
  | c :: rest =>
    if c = '\n' then ['\n'] :: readlines rest
    else
      match readlines rest with
      | [] => [[c]]
      | l :: ls => (c :: l) :: ls

/-- Python `s.find(pat)` (as an `Option`): index of the first occurrence of
`pat` in `s`, or `none`.  `s in line` is `(pyFind line s).isSome`. -/
def pyFind : List Char → List Char → Option Nat
  | [], pat => if pat.isEmpty then some 0 else none
  | c :: rest, pat =>
    if pat.isPrefixOf (c :: rest) then some 0
    else (pyFind rest pat).map (· + 1)

/-- Boolean lexicographic comparison of character lists by code point; this is
the order Python's `sorted` uses on strings. -/
def lexLe : List Char → List Char → Bool
  | [], _ => true
  | _ :: _, [] => false
  | a :: as, b :: bs => if a < b then true else if b < a then false else lexLe as bs

/-- The order on references used to model Python's `sorted`. -/
def RefLe (x y : List Char) : Prop := lexLe x y = true

instance : DecidableRel RefLe := fun x y => by unfold RefLe; infer_instance

/-- Worker for Python's `str.replace` with a non-empty pattern `old`.  The
`Nat` argument counts characters of a just-matched occurrence that still have
to be consumed without being emitted; matching is left to right and
non-overlapping, exactly as in CPython. -/
def replaceSkip (old new : List Char) : Nat → List Char → List Char
  | _, [] => []
  | k + 1, _ :: rest => replaceSkip old new k rest
  | 0, c :: rest =>
    if old.isPrefixOf (c :: rest) then new ++ replaceSkip old new (old.length - 1) rest
    else c :: replaceSkip old new 0 rest

/-- Python `s.replace(old, new)`.  All patterns used by the program are
non-empty; the empty-pattern case mirrors CPython's insert-everywhere rule. -/
def pyReplace (s old new : List Char) : List Char :=
  if old.isEmpty then new ++ s.foldr (fun c acc => c :: (new ++ acc)) []
  else replaceSkip old new 0 s

/-- Python `s.split(sep)` for a single-character separator. -/
def pySplitSep (sep : Char) : List Char → List (List Char)
  | [] => [[]]
  | c :: rest =>
    if c = sep then [] :: pySplitSep sep rest
    else
      match pySplitSep sep rest with
      | [] => [[c]]
      | p :: ps => (c :: p) :: ps

/-- No occurrence of `pat` starts anywhere in `s`. -/
def NoMatch (pat s : List Char) : Prop :=
  ∀ i < s.length, pat.isPrefixOf (s.drop i) = false

instance (pat s : List Char) : Decidable (NoMatch pat s) := by
  unfold NoMatch; infer_instance

/-- String-literal helper: the character list of a literal. -/
def chars (s : String) : List Char := s.toList

/-- The configured registry prefixes of `main.py` (`IMAGE_PREFIXES`). -/
def IMAGE_PREFIXES : List (List Char) :=
  [chars "registry.ci.openshift.org/openshift/knative-",
   chars "registry.ci.openshift.org/knative/openshift-serverless-",
   chars "registry.ci.openshift.org/knative/release-"]

/-- The scanning loop of `collect_images` (main.py lines 29-42): strip each
line; if it contains the configured pattern `pfx`, take the remainder of the
stripped line from the first occurrence of `pfx` on, remove one trailing
double quote if present, and append the candidate. -/
def scanImages (lines : List (List Char)) (pfx : List Char) : List (List Char) :=
  lines.foldl
    (fun images line =>
      let l := pyStrip line
      match pyFind l pfx with
      | some start_of =>
        let img := l.drop start_of
        let img2 := if img.getLast? = some '"' then img.dropLast else img
        images ++ [img2]
      | none => images)
    []

/-- Python `sorted(list(set(xs)))` (main.py line 45): deduplicate, then sort
ascending lexicographically. -/
def pySortedSet (xs : List (List Char)) : List (List Char) :=
  List.insertionSort RefLe xs.dedup

/-- `collect_images` of main.py restricted to its pure core: the file content
is passed as the already-split line list. -/
def collect_images (lines : List (List Char)) (pfx : List Char) : List (List Char) :=
  pySortedSet (scanImages lines pfx)

/-- The quoted search pattern `f'"{img_name}"'` of main.py line 86. -/
def quotedP (r : List Char) : List Char := '"' :: (r ++ ['"'])

/-- The quoted replacement `f'"{img_name}@{img_digest}"'` of main.py line 86. -/
def pinQ (r d : List Char) : List Char := '"' :: (r ++ '@' :: (d ++ ['"']))

/-- The end-of-line search pattern `f'{img_name}\n'` of main.py line 93. -/
def nlP (r : List Char) : List Char := r ++ ['\n']

/-- The end-of-line replacement `f'{img_name}@{img_digest}\n'` of line 93. -/
def pinN (r d : List Char) : List Char := r ++ '@' :: (d ++ ['\n'])

/-- The two `str.replace` passes main.py lines 86 and 93 perform for one
`(img_name, img_digest)` entry of the digest map. -/
def applyEntry (s : List Char) (e : List Char × List Char) : List Char :=
  pyReplace (pyReplace s (quotedP e.1) (pinQ e.1 e.2)) (nlP e.1) (pinN e.1 e.2)

/-- The rewriting loop of `replace_images` (main.py lines 78-93) on the full
manifest text; the digest map is its entry list in insertion order, as Python
dictionaries iterate. -/
def replace_images (csv_content : List Char) (img_map : List (List Char × List Char)) :
    List Char :=
  img_map.foldl applyEntry csv_content

/-! Basic lemmas about the `str.replace` model. -/

theorem isPrefixOf_self_append : ∀ (l t : List Char), l.isPrefixOf (l ++ t) = true
  | [], _ => by simp [List.isPrefixOf]
  | c :: cs, t => by
    simp [List.isPrefixOf, List.cons_append, isPrefixOf_self_append cs t]

theorem replaceSkip_shift (old new : List Char) :
    ∀ (s : List Char) (k : Nat), replaceSkip old new k s = replaceSkip old new 0 (s.drop k)
  | [], 0 => rfl
  | [], _ + 1 => rfl
  | _ :: _, 0 => rfl
  | c :: rest, k + 1 => by
    rw [List.drop_succ_cons]
    exact replaceSkip_shift old new rest k

theorem replaceSkip_pos (old new : List Char) (hne : old ≠ []) (c : Char) (rest : List Char)
    (hm : old.isPrefixOf (c :: rest) = true) :
    replaceSkip old new 0 (c :: rest) =
      new ++ replaceSkip old new 0 ((c :: rest).drop old.length) := by
  cases old with
  | nil => exact absurd rfl hne
  | cons o os =>
    simp only [replaceSkip, hm, if_pos]
    rw [replaceSkip_shift]
    simp

theorem replaceSkip_neg (old new : List Char) (c : Char) (rest : List Char)
    (hm : old.isPrefixOf (c :: rest) = false) :
    replaceSkip old new 0 (c :: rest) = c :: replaceSkip old new 0 rest := by
  cases old with
  | nil => simp [List.isPrefixOf] at hm
  | cons o os => simp only [replaceSkip, hm]; simp

theorem NoMatch.tail {old : List Char} {c : Char} {rest : List Char}
    (h : NoMatch old (c :: rest)) : NoMatch old rest := fun i hi => by
  have := h (i + 1) (by simpa using Nat.succ_lt_succ hi)
  simpa using this

theorem replaceSkip_id (old new : List Char) :
    ∀ s : List Char, NoMatch old s → replaceSkip old new 0 s = s
  | [], _ => rfl
  | c :: rest, h => by
    have h0 : old.isPrefixOf (c :: rest) = false := by
      simpa using h 0 (by simp)
    rw [replaceSkip_neg old new c rest h0, replaceSkip_id old new rest h.tail]

theorem replaceSkip_decomp (old new : List Char) (hne : old ≠ []) :
    ∀ (a b : List Char),
      (∀ i < a.length, old.isPrefixOf ((a ++ old ++ b).drop i) = false) →
      replaceSkip old new 0 (a ++ old ++ b) = a ++ new ++ replaceSkip old new 0 b
  | [], b, _ => by
    cases old with
    | nil => exact absurd rfl hne
    | cons o os =>
      have hpre : (o :: os).isPrefixOf (o :: (os ++ b)) = true :=
        isPrefixOf_self_append (o :: os) b
      have hpos := replaceSkip_pos (o :: os) new hne o (os ++ b) hpre
      simp only [List.nil_append, List.cons_append]
      rw [hpos]
      simp
  | c :: a', b, h => by
    have h0 : old.isPrefixOf (c :: (a' ++ old ++ b)) = false := by
      have h' := h 0 (by simp)
      simpa only [List.drop_zero, List.cons_append] using h'
    have hih : ∀ i < a'.length, old.isPrefixOf ((a' ++ old ++ b).drop i) = false := by
      intro i hi
      have h' := h (i + 1) (by simpa using Nat.succ_lt_succ hi)
      simpa only [List.cons_append, List.drop_succ_cons] using h'
    calc replaceSkip old new 0 ((c :: a') ++ old ++ b)
        = replaceSkip old new 0 (c :: (a' ++ old ++ b)) := by
          simp only [List.cons_append]
      _ = c :: replaceSkip old new 0 (a' ++ old ++ b) :=
          replaceSkip_neg old new c _ h0
      _ = c :: (a' ++ new ++ replaceSkip old new 0 b) := by
          rw [replaceSkip_decomp old new hne a' b hih]
      _ = (c :: a') ++ new ++ replaceSkip old new 0 b := by
          simp only [List.cons_append]

theorem quotedP_ne_nil (r : List Char) : quotedP r ≠ [] := by simp [quotedP]

theorem nlP_ne_nil (r : List Char) : nlP r ≠ [] := by simp [nlP]

theorem pyReplace_eq_replaceSkip (s old new : List Char) (hne : old ≠ []) :
    pyReplace s old new = replaceSkip old new 0 s := by
  simp [pyReplace, List.isEmpty_iff, hne]

theorem pyReplace_id (s old new : List Char) (hne : old ≠ []) (h : NoMatch old s) :
    pyReplace s old new = s := by
  rw [pyReplace_eq_replaceSkip s old new hne]
  exact replaceSkip_id old new s h

theorem pyReplace_decomp (a b old new : List Char) (hne : old ≠ [])
    (h : ∀ i < a.length, old.isPrefixOf ((a ++ old ++ b).drop i) = false) :
    pyReplace (a ++ old ++ b) old new = a ++ new ++ replaceSkip old new 0 b := by
  rw [pyReplace_eq_replaceSkip _ old new hne]
  exact replaceSkip_decomp old new hne a b h

/-- A digest-map entry whose two anchored patterns occur nowhere in the text
rewrites the text to itself. -/
theorem applyEntry_id (s : List Char) (e : List Char × List Char)
    (hq : NoMatch (quotedP e.1) s) (hn : NoMatch (nlP e.1) s) :
    applyEntry s e = s := by
  unfold applyEntry
  rw [pyReplace_id s _ _ (quotedP_ne_nil e.1) hq, pyReplace_id s _ _ (nlP_ne_nil e.1) hn]

/-- One entry, one quote-anchored occurrence: the occurrence is pinned and the
rest of the text is preserved byte for byte. -/
theorem applyEntry_quoted (A B r d : List Char)
    (h1 : ∀ i < A.length, (quotedP r).isPrefixOf ((A ++ quotedP r ++ B).drop i) = false)
    (h2 : NoMatch (quotedP r) B)
    (h3 : NoMatch (nlP r) (A ++ pinQ r d ++ B)) :
    applyEntry (A ++ quotedP r ++ B) (r, d) = A ++ pinQ r d ++ B := by
  unfold applyEntry
  rw [pyReplace_decomp A B (quotedP r) (pinQ r d) (quotedP_ne_nil r) h1,
    replaceSkip_id _ _ B h2]
  exact pyReplace_id _ _ _ (nlP_ne_nil r) h3

/-- One entry, one quote-anchored and one newline-anchored occurrence: both are
pinned and everything in between is preserved byte for byte. -/
theorem applyEntry_both (a b c r d : List Char)
    (h1 : ∀ i < a.length,
      (quotedP r).isPrefixOf ((a ++ quotedP r ++ (b ++ nlP r ++ c)).drop i) = false)
    (h2 : NoMatch (quotedP r) (b ++ nlP r ++ c))
    (h3 : ∀ i < (a ++ pinQ r d ++ b).length,
      (nlP r).isPrefixOf (((a ++ pinQ r d ++ b) ++ nlP r ++ c).drop i) = false)
    (h4 : NoMatch (nlP r) c) :
    applyEntry (a ++ quotedP r ++ (b ++ nlP r ++ c)) (r, d) =
      a ++ pinQ r d ++ (b ++ pinN r d ++ c) := by
  unfold applyEntry
  rw [pyReplace_decomp a (b ++ nlP r ++ c) (quotedP r) (pinQ r d) (quotedP_ne_nil r) h1,
    replaceSkip_id _ _ _ h2]
  have hre : a ++ pinQ r d ++ (b ++ nlP r ++ c) = (a ++ pinQ r d ++ b) ++ nlP r ++ c := by
    simp
  rw [hre, pyReplace_decomp _ c (nlP r) (pinN r d) (nlP_ne_nil r) h3,
    replaceSkip_id _ _ c h4]
  simp

/-- A rewrite pass whose anchored patterns occur nowhere in the text is the
identity on the text. -/
theorem replace_images_id :
    ∀ (m : List (List Char × List Char)) (s : List Char),
      (∀ e ∈ m, NoMatch (quotedP e.1) s ∧ NoMatch (nlP e.1) s) →
      replace_images s m = s
  | [], _, _ => rfl
  | e :: m', s, h => by
    have he := h e (by simp)
    have step : applyEntry s e = s := applyEntry_id s e he.1 he.2
    show List.foldl applyEntry (applyEntry s e) m' = s
    rw [step]
    exact replace_images_id m' s (fun e' he' => h e' (by simp [he']))

/-- Join a list of segments with a separator between consecutive segments:
a text with n non-overlapping occurrences of a pattern is `joinSep pat ps`
for a segment list `ps` of length n + 1. -/
def joinSep (sep : List Char) : List (List Char) → List Char
  | [] => []
  | [p] => p
  | p :: ps => p ++ sep ++ joinSep sep ps

/-- Certificate that `ps` is the segmentation of `joinSep old ps` at the
occurrences of `old` selected by Python's left-to-right non-overlapping scan:
no occurrence of `old` starts inside a segment (before the occurrence that
follows it), and none occurs in the final segment. -/
def SegOk (old : List Char) : List (List Char) → Prop
  | [] => True
  | [p] => NoMatch old p
  | p :: ps =>
    (∀ i < p.length, old.isPrefixOf ((p ++ old ++ joinSep old ps).drop i) = false) ∧
      SegOk old ps

instance instDecidableSegOk :
    (old : List Char) → (ps : List (List Char)) → Decidable (SegOk old ps)
  | _, [] => .isTrue trivial
  | old, [p] => inferInstanceAs (Decidable (NoMatch old p))
  | old, _p :: p' :: ps =>
    haveI : Decidable (SegOk old (p' :: ps)) := instDecidableSegOk old (p' :: ps)
    inferInstanceAs (Decidable (_ ∧ _))

/-- A replacement pass on a certified segmentation pins every occurrence and
passes every segment through byte for byte. -/
theorem replaceSkip_joinSep (old new : List Char) (hne : old ≠ []) :
    ∀ ps : List (List Char), SegOk old ps →
      replaceSkip old new 0 (joinSep old ps) = joinSep new ps
  | [], _ => rfl
  | [p], h => replaceSkip_id old new p h
  | p :: p' :: ps, h => by
    show replaceSkip old new 0 (p ++ old ++ joinSep old (p' :: ps)) =
      p ++ new ++ joinSep new (p' :: ps)
    rw [replaceSkip_decomp old new hne p (joinSep old (p' :: ps)) h.1]
    rw [replaceSkip_joinSep old new hne (p' :: ps) h.2]

theorem pyReplace_joinSep (old new : List Char) (hne : old ≠ [])
    (ps : List (List Char)) (h : SegOk old ps) :
    pyReplace (joinSep old ps) old new = joinSep new ps := by
  rw [pyReplace_eq_replaceSkip _ old new hne]
  exact replaceSkip_joinSep old new hne ps h

/-- One digest-map entry on certified segmentations: the quoted pass pins
every quote-anchored occurrence, then the newline pass pins every
newline-anchored occurrence of the intermediate text. -/
theorem applyEntry_spec (r d : List Char) (qs ns : List (List Char))
    (hq : SegOk (quotedP r) qs)
    (heq : joinSep (pinQ r d) qs = joinSep (nlP r) ns)
    (hn : SegOk (nlP r) ns) :
    applyEntry (joinSep (quotedP r) qs) (r, d) = joinSep (pinN r d) ns := by
  unfold applyEntry
  rw [pyReplace_joinSep _ _ (quotedP_ne_nil r) qs hq, heq,
    pyReplace_joinSep _ _ (nlP_ne_nil r) ns hn]

/-- Certificate that `replace_images` rewrites `t` to `t'`: entry by entry in
map order, the current text is segmented at the left-to-right non-overlapping
occurrences of the entry's quoted pattern, every one is pinned, then the
intermediate text is re-segmented at the occurrences of the entry's newline
pattern and every one is pinned; any number of occurrences (including zero)
of either shape is allowed for each entry. -/
def RewriteSpec : List (List Char × List Char) → List Char → List Char → Prop
  | [], t, t' => t = t'
  | (r, d) :: m', t, t' =>
    ∃ qs ns, t = joinSep (quotedP r) qs ∧ SegOk (quotedP r) qs ∧
      joinSep (pinQ r d) qs = joinSep (nlP r) ns ∧ SegOk (nlP r) ns ∧
      RewriteSpec m' (joinSep (pinN r d) ns) t'

theorem replace_images_spec :
    ∀ (m : List (List Char × List Char)) (t t' : List Char),
      RewriteSpec m t t' → replace_images t m = t'
  | [], _, _, h => h
  | (r, d) :: m', t, t', h => by
    obtain ⟨qs, ns, ht, hq, heq, hn, hrest⟩ := h
    show List.foldl applyEntry (applyEntry t (r, d)) m' = t'
    rw [ht, applyEntry_spec r d qs ns hq heq hn]
    exact replace_images_spec m' _ t' hrest

/-! The lexicographic order used to model Python's `sorted` on strings. -/

theorem lexLe_cons (a b : Char) (as bs : List Char) :
    lexLe (a :: as) (b :: bs) = true ↔ (a < b ∨ (a = b ∧ lexLe as bs = true)) := by
  by_cases h1 : a < b
  · simp [lexLe, h1]
  · by_cases h2 : b < a
    · have hne : a ≠ b := fun hab => absurd (hab ▸ h2) (lt_irrefl a)
      simp [lexLe, h1, h2, hne]
    · have heq : a = b := le_antisymm (not_lt.mp h2) (not_lt.mp h1)
      simp [lexLe, h1, h2, heq]

theorem lexLe_total : ∀ a b : List Char, lexLe a b = true ∨ lexLe b a = true
  | [], _ => Or.inl rfl
  | _ :: _, [] => Or.inr rfl
  | a :: as, b :: bs => by
    rcases lt_trichotomy a b with h | h | h
    · exact Or.inl ((lexLe_cons a b as bs).mpr (Or.inl h))
    · rcases lexLe_total as bs with h' | h'
      · exact Or.inl ((lexLe_cons a b as bs).mpr (Or.inr ⟨h, h'⟩))
      · exact Or.inr ((lexLe_cons b a bs as).mpr (Or.inr ⟨h.symm, h'⟩))
    · exact Or.inr ((lexLe_cons b a bs as).mpr (Or.inl h))

theorem lexLe_trans :
    ∀ a b c : List Char, lexLe a b = true → lexLe b c = true → lexLe a c = true
  | [], _, _, _, _ => rfl
  | _ :: _, [], _, h, _ => by simp [lexLe] at h
  | _ :: _, _ :: _, [], _, h => by simp [lexLe] at h
  | a :: as, b :: bs, c :: cs, h1, h2 => by
    apply (lexLe_cons a c as cs).mpr
    rcases (lexLe_cons a b as bs).mp h1 with hab | ⟨hab, hab'⟩
    · rcases (lexLe_cons b c bs cs).mp h2 with hbc | ⟨hbc, _⟩
      · exact Or.inl (lt_trans hab hbc)
      · exact Or.inl (hbc ▸ hab)
    · rcases (lexLe_cons b c bs cs).mp h2 with hbc | ⟨hbc, hbc'⟩
      · exact Or.inl (hab ▸ hbc)
      · exact Or.inr ⟨hab.trans hbc, lexLe_trans as bs cs hab' hbc'⟩

theorem lexLe_antisymm : ∀ a b : List Char, lexLe a b = true → lexLe b a = true → a = b
  | [], [], _, _ => rfl
  | [], _ :: _, _, h => by simp [lexLe] at h
  | _ :: _, [], h, _ => by simp [lexLe] at h
  | a :: as, b :: bs, h1, h2 => by
    rcases (lexLe_cons a b as bs).mp h1 with hab | ⟨hab, hab'⟩
    · rcases (lexLe_cons b a bs as).mp h2 with hba | ⟨hba, _⟩
      · exact absurd (lt_trans hab hba) (lt_irrefl a)
      · exact absurd hab (by simp [hba])
    · rcases (lexLe_cons b a bs as).mp h2 with hba | ⟨_, hba'⟩
      · exact absurd (hab ▸ hba) (lt_irrefl a)
      · rw [hab, lexLe_antisymm as bs hab' hba']

instance : IsTotal (List Char) RefLe := ⟨fun a b => lexLe_total a b⟩

instance : IsTrans (List Char) RefLe := ⟨fun a b c => lexLe_trans a b c⟩

instance : IsAntisymm (List Char) RefLe := ⟨fun a b => lexLe_antisymm a b⟩

theorem pySortedSet_nodup (l : List (List Char)) : (pySortedSet l).Nodup :=
  ((List.perm_insertionSort RefLe l.dedup).nodup_iff).mpr (List.nodup_dedup l)

theorem pySortedSet_sorted (l : List (List Char)) : (pySortedSet l).Sorted RefLe :=
  List.sorted_insertionSort RefLe l.dedup

theorem pySortedSet_ext (l l' : List (List Char)) (h : ∀ x, x ∈ l ↔ x ∈ l') :
    pySortedSet l = pySortedSet l' := by
  have hperm : List.Perm l.dedup l'.dedup := by
    apply List.perm_of_nodup_nodup_toFinset_eq (List.nodup_dedup l) (List.nodup_dedup l')
    apply Finset.ext
    intro x
    simp [List.mem_dedup, h x]
  exact List.eq_of_perm_of_sorted
    ((List.perm_insertionSort RefLe l.dedup).trans
      (hperm.trans (List.perm_insertionSort RefLe l'.dedup).symm))
    (pySortedSet_sorted l) (pySortedSet_sorted l')

/-! Characterization of `pyFind` (Python `str.find`). -/

theorem pyFind_some :
    ∀ (s pat : List Char) (i : Nat), pyFind s pat = some i →
      pat.isPrefixOf (s.drop i) = true ∧ ∀ j < i, pat.isPrefixOf (s.drop j) = false
  | [], pat, i, h => by
    cases pat with
    | nil =>
      simp [pyFind] at h
      subst h
      exact ⟨by simp [List.isPrefixOf], fun j hj => absurd hj (by omega)⟩
    | cons c cs => simp [pyFind, List.isEmpty] at h
  | c :: rest, pat, i, h => by
    cases hm : pat.isPrefixOf (c :: rest) with
    | true =>
      simp [pyFind, hm] at h
      subst h
      exact ⟨by simpa using hm, fun j hj => absurd hj (by omega)⟩
    | false =>
      simp [pyFind, hm] at h
      obtain ⟨i', hfind, hi⟩ := h
      obtain ⟨ha, hb⟩ := pyFind_some rest pat i' hfind
      subst hi
      refine ⟨by simpa using ha, ?_⟩
      intro j hj
      cases j with
      | zero => simpa using hm
      | succ j' =>
        have hj' := hb j' (by omega)
        simpa using hj'

theorem pyFind_none (s pat : List Char) (h : pyFind s pat = none) : NoMatch pat s := by
  induction s with
  | nil => intro i hi; simp at hi
  | cons c rest ih =>
    intro i hi
    cases hm : pat.isPrefixOf (c :: rest) with
    | true => simp [pyFind, hm] at h
    | false =>
      simp [pyFind, hm] at h
      cases i with
      | zero => simpa using hm
      | succ i' =>
        have hih := ih h
        have hi' := hih i' (by simpa using Nat.lt_of_succ_lt_succ hi)
        simpa using hi'

/-! Boolean prefix facts used for the scanner invariants. -/

theorem isPrefixOf_length : ∀ (p l : List Char), p.isPrefixOf l = true → p.length ≤ l.length
  | [], _, _ => by simp
  | _ :: _, [], h => by simp [List.isPrefixOf] at h
  | a :: ps, b :: ls, h => by
    simp only [List.isPrefixOf, Bool.and_eq_true, beq_iff_eq] at h
    simpa using Nat.succ_le_succ (isPrefixOf_length ps ls h.2)

theorem isPrefixOf_eq_of_length :
    ∀ (p l : List Char), p.isPrefixOf l = true → p.length = l.length → p = l
  | [], [], _, _ => rfl
  | [], _ :: _, _, h => by simp at h
  | _ :: _, [], h, _ => by simp [List.isPrefixOf] at h
  | a :: ps, b :: ls, h, hl => by
    simp only [List.isPrefixOf, Bool.and_eq_true, beq_iff_eq] at h
    simp only [List.length_cons, Nat.succ.injEq] at hl
    rw [h.1, isPrefixOf_eq_of_length ps ls h.2 hl]

theorem isPrefixOf_head :
    ∀ (a : Char) (ps l : List Char), (a :: ps).isPrefixOf l = true → l.head? = some a
  | _, _, [], h => by simp [List.isPrefixOf] at h
  | a, ps, b :: ls, h => by
    simp only [List.isPrefixOf, Bool.and_eq_true, beq_iff_eq] at h
    simp [h.1]

theorem isPrefixOf_dropLast :
    ∀ (p l : List Char), p.isPrefixOf l = true → p.length < l.length →
      p.isPrefixOf l.dropLast = true
  | [], _, _, _ => by simp [List.isPrefixOf]
  | _ :: _, [], h, _ => by simp [List.isPrefixOf] at h
  | a :: ps, b :: ls, h, hl => by
    simp only [List.isPrefixOf, Bool.and_eq_true, beq_iff_eq] at h
    rcases ls with _ | ⟨c, ls'⟩
    · simp at hl
    · have hrec := isPrefixOf_dropLast ps (c :: ls') h.2 (by simpa using Nat.lt_of_succ_lt_succ hl)
      show (a :: ps).isPrefixOf (b :: (c :: ls').dropLast) = true
      simp [List.isPrefixOf, h.1, hrec]

theorem isPrefixOf_comparable :
    ∀ (r p q : List Char), p.isPrefixOf r = true → q.isPrefixOf r = true →
      p.isPrefixOf q = true ∨ q.isPrefixOf p = true
  | _, [], q, _, _ => Or.inl (by simp [List.isPrefixOf])
  | _, _ :: _, [], _, _ => Or.inr (by simp [List.isPrefixOf])
  | [], _ :: _, _, hp, _ => by simp [List.isPrefixOf] at hp
  | c :: rs, a :: ps, b :: qs, hp, hq => by
    simp only [List.isPrefixOf, Bool.and_eq_true, beq_iff_eq] at hp hq
    rcases isPrefixOf_comparable rs ps qs hp.2 hq.2 with h | h
    · exact Or.inl (by simp [List.isPrefixOf, hp.1, hq.1, h])
    · exact Or.inr (by simp [List.isPrefixOf, hp.1, hq.1, h])

/-- Modelled from the spec (section 4.1 ReferenceScanner): per (logical) line,
if the line contains the pattern, the candidate is the remainder of the line
from the first occurrence of the pattern on, with exactly one trailing double
quote stripped when present; otherwise the line contributes nothing. -/
def specLineCandidate (pfx line : List Char) : Option (List Char) :=
  match pyFind line pfx with
  | none => none
  | some i =>
    let cand := line.drop i
    some (if cand.getLast? = some '"' then cand.dropLast else cand)

theorem scanImages_eq_filterMap (lines : List (List Char)) (pfx : List Char) :
    scanImages lines pfx = lines.filterMap (fun l => specLineCandidate pfx (pyStrip l)) := by
  suffices h : ∀ (ls : List (List Char)) (acc : List (List Char)),
      ls.foldl
        (fun images line =>
          let l := pyStrip line
          match pyFind l pfx with
          | some start_of =>
            let img := l.drop start_of
            let img2 := if img.getLast? = some '"' then img.dropLast else img
            images ++ [img2]
          | none => images)
        acc = acc ++ ls.filterMap (fun l => specLineCandidate pfx (pyStrip l)) by
    simpa using h lines []
  intro ls
  induction ls with
  | nil => intro acc; simp
  | cons l ls' ih =>
    intro acc
    cases hf : pyFind (pyStrip l) pfx with
    | none =>
      have hcand : specLineCandidate pfx (pyStrip l) = none := by
        simp [specLineCandidate, hf]
      simp only [List.foldl_cons, List.filterMap_cons, hcand, hf]
      exact ih acc
    | some i =>
      have hcand : specLineCandidate pfx (pyStrip l) =
          some (if (List.drop i (pyStrip l)).getLast? = some '"' then
            (List.drop i (pyStrip l)).dropLast else List.drop i (pyStrip l)) := by
        simp [specLineCandidate, hf]
      simp only [List.foldl_cons, List.filterMap_cons, hcand, hf]
      rw [ih]
      simp

theorem mem_scanImages (lines : List (List Char)) (pfx ref : List Char) :
    ref ∈ scanImages lines pfx ↔
      ∃ l ∈ lines, specLineCandidate pfx (pyStrip l) = some ref := by
  rw [scanImages_eq_filterMap]
  simp [List.mem_filterMap]

theorem mem_collect_images (lines : List (List Char)) (pfx ref : List Char) :
    ref ∈ collect_images lines pfx ↔ ref ∈ scanImages lines pfx := by
  unfold collect_images pySortedSet
  rw [List.mem_insertionSort, List.mem_dedup]

/-! The resolution phase: `create_image_map` and the `execute` pipeline.
The docker client is an external collaborator; it is passed in as `store`,
a function from an image name to the `RepoDigests` list recorded for it
(`none` models `docker_client.images.get` raising).  Modelled from the spec
(section 4.3 design note): the local store reports recorded repo-digests
most-recently-recorded first, so the head of the list is the most recently
recorded entry, as `all_digests[0]` on main.py line 66 assumes. -/

/-- Python `img_map[img_name] = v`: replace the value if the key is present,
else append the new binding (dictionaries preserve insertion order). -/
def dictInsert : List (List Char × List Char) → List Char → List Char →
    List (List Char × List Char)
  | [], k, v => [(k, v)]
  | (k', v') :: rest, k, v =>
    if k' = k then (k, v) :: rest else (k', v') :: dictInsert rest k v

/-- Dictionary lookup `img_map[k]`. -/
def lookupRef : List (List Char × List Char) → List Char → Option (List Char)
  | [], _ => none
  | (k', v') :: rest, k => if k' = k then some v' else lookupRef rest k

/-- One iteration of the loop of `create_image_map` (main.py lines 63-68):
fetch the `RepoDigests` of the image from the store, take entry `[0]`, split
it on `'@'` and keep component `[1]`; `none` models the exceptions raised by
`images.get`, by `all_digests[0]` on an empty list and by `split("@")[1]`. -/
def resolveOne (store : List Char → Option (List (List Char))) (img_name : List Char) :
    Option (List Char) :=
  match store img_name with
  | none => none
  | some all_digests =>
    match all_digests with
    | [] => none
    | latest_digest :: _ => (pySplitSep '@' latest_digest).get? 1

/-- Loop body of `create_image_map`; a `none` accumulator models an exception
already raised (the loop never resumes). -/
def cimStep (store : List Char → Option (List (List Char)))
    (acc : Option (List (List Char × List Char))) (img_name : List Char) :
    Option (List (List Char × List Char)) :=
  match acc with
  | none => none
  | some img_map =>
    match resolveOne store img_name with
    | none => none
    | some d => some (dictInsert img_map img_name d)

/-- `create_image_map` of main.py (lines 60-69) over the abstract store. -/
def create_image_map (images : List (List Char))
    (store : List Char → Option (List (List Char))) :
    Option (List (List Char × List Char)) :=
  images.foldl (cimStep store) (some [])

/-- The image collection loop of `execute` (main.py lines 115-117): collect
for each configured registry pattern and concatenate. -/
def collectAll (csv : List Char) : List (List Char) :=
  IMAGE_PREFIXES.foldl (fun images pfx => images ++ collect_images (readlines csv) pfx) []

/-- The manifest-state semantics of `execute` (main.py lines 109-130): the
result is the final content of the CSV file.  `pull` reports whether pulling
an image succeeds (`pull_images`, which raises on failure, is the loop on
lines 49-57 and aborts the run before any write); `create_image_map` raising
likewise aborts before any write; only after both succeed is the file
overwritten with the rewritten text. -/
def executeModel (csv : List Char) (pull : List Char → Bool)
    (store : List Char → Option (List (List Char))) : List Char :=
  let images := collectAll csv
  if images.all pull then
    match create_image_map images store with
    | some img_map => replace_images csv img_map
    | none => csv
  else csv

theorem pySplitSep_no_sep (sep : Char) :
    ∀ d : List Char, sep ∉ d → pySplitSep sep d = [d]
  | [], _ => rfl
  | c :: rest, h => by
    have hc : ¬ c = sep := fun hcs => h (by simp [hcs])
    have hrest := pySplitSep_no_sep sep rest (fun hm => h (by simp [hm]))
    simp [pySplitSep, hc, hrest]

theorem pySplitSep_push (sep : Char) :
    ∀ (n t : List Char), sep ∉ n →
      pySplitSep sep (n ++ sep :: t) = n :: pySplitSep sep t
  | [], t, _ => by simp [pySplitSep]
  | c :: n', t, h => by
    have hc : ¬ c = sep := fun hcs => h (by simp [hcs])
    have hrest := pySplitSep_push sep n' t (fun hm => h (by simp [hm]))
    simp [pySplitSep, hc, hrest]

theorem resolveOne_head (store : List Char → Option (List (List Char)))
    (img_name n d : List Char) (rest : List (List Char))
    (hstore : store img_name = some ((n ++ '@' :: d) :: rest))
    (hn : '@' ∉ n) (hd : '@' ∉ d) :
    resolveOne store img_name = some d := by
  have hres : resolveOne store img_name = (pySplitSep '@' (n ++ '@' :: d)).get? 1 := by
    unfold resolveOne
    rw [hstore]
  rw [hres, pySplitSep_push '@' n d hn, pySplitSep_no_sep '@' d hd]
  rfl

theorem cimFold_none (store : List Char → Option (List (List Char))) :
    ∀ images : List (List Char), images.foldl (cimStep store) none = none
  | [] => rfl
  | _ :: rest => cimFold_none store rest

theorem lookupRef_dictInsert_self (k v : List Char) :
    ∀ m : List (List Char × List Char), lookupRef (dictInsert m k v) k = some v
  | [] => by simp [dictInsert, lookupRef]
  | (k', v') :: rest => by
    by_cases hk : k' = k
    · simp [dictInsert, lookupRef, hk]
    · simp [dictInsert, lookupRef, hk, lookupRef_dictInsert_self k v rest]

theorem lookupRef_dictInsert_other (k k' v : List Char) (hne : k' ≠ k) :
    ∀ m : List (List Char × List Char),
      lookupRef (dictInsert m k' v) k = lookupRef m k
  | [] => by simp [dictInsert, lookupRef, hne]
  | (k'', v'') :: rest => by
    by_cases hk : k'' = k'
    · subst hk
      simp [dictInsert, lookupRef, hne]
    · by_cases hk2 : k'' = k
      · simp [dictInsert, lookupRef, hk, hk2, Ne.symm hne]
      · simp [dictInsert, lookupRef, hk, hk2, lookupRef_dictInsert_other k k' v hne rest]

theorem cimFold_preserves (store : List Char → Option (List (List Char))) :
    ∀ (images : List (List Char)) (m0 m : List (List Char × List Char)),
      images.foldl (cimStep store) (some m0) = some m →
      ∀ k, k ∉ images → lookupRef m k = lookupRef m0 k
  | [], m0, m, h, k, _ => by
    simp at h
    rw [h]
  | img :: rest, m0, m, h, k, hk => by
    have hk1 : img ≠ k := fun he => hk (by simp [he])
    have hk2 : k ∉ rest := fun he => hk (by simp [he])
    cases hres : resolveOne store img with
    | none =>
      have hstep : cimStep store (some m0) img = none := by
        simp [cimStep, hres]
      rw [List.foldl_cons, hstep, cimFold_none store rest] at h
      exact absurd h (by simp)
    | some d =>
      have hstep : cimStep store (some m0) img = some (dictInsert m0 img d) := by
        simp [cimStep, hres]
      rw [List.foldl_cons, hstep] at h
      rw [cimFold_preserves store rest (dictInsert m0 img d) m h k hk2]
      exact lookupRef_dictInsert_other k img d hk1 m0

theorem cimFold_success (store : List Char → Option (List (List Char))) :
    ∀ (images : List (List Char)) (m0 m : List (List Char × List Char)),
      images.foldl (cimStep store) (some m0) = some m →
      ∀ ref ∈ images, ∃ d, resolveOne store ref = some d ∧ lookupRef m ref = some d
  | [], _, _, _, ref, h => absurd h (by simp)
  | img :: rest, m0, m, h, ref, hmem => by
    cases hres : resolveOne store img with
    | none =>
      have hstep : cimStep store (some m0) img = none := by
        simp [cimStep, hres]
      rw [List.foldl_cons, hstep, cimFold_none store rest] at h
      exact absurd h (by simp)
    | some d =>
      have hstep : cimStep store (some m0) img = some (dictInsert m0 img d) := by
        simp [cimStep, hres]
      rw [List.foldl_cons, hstep] at h
      rcases List.mem_cons.mp hmem with heq | hmem'
      · subst heq
        by_cases hrest : ref ∈ rest
        · exact cimFold_success store rest _ m h ref hrest
        · refine ⟨d, hres, ?_⟩
          rw [cimFold_preserves store rest _ m h ref hrest]
          exact lookupRef_dictInsert_self ref d m0
      · exact cimFold_success store rest _ m h ref hmem'

theorem create_image_map_success (store : List Char → Option (List (List Char)))
    (images : List (List Char)) (m : List (List Char × List Char))
    (h : create_image_map images store = some m) :
    ∀ ref ∈ images, ∃ d, resolveOne store ref = some d ∧ lookupRef m ref = some d :=
  cimFold_success store images [] m h

theorem create_image_map_none_of_fail (store : List Char → Option (List (List Char)))
    (images : List (List Char)) (ref : List Char) (hmem : ref ∈ images)
    (hfail : resolveOne store ref = none) : create_image_map images store = none := by
  cases hmap : create_image_map images store with
  | none => rfl
  | some m =>
    obtain ⟨d, hd, _⟩ := create_image_map_success store images m hmap ref hmem
    rw [hfail] at hd
    exact absurd hd (by simp)

/-! Facts about `pyStrip` and `readlines` feeding the scanner invariants. -/

theorem dropWhile_head_not (p : Char → Bool) :
    ∀ (l : List Char) (c : Char), (l.dropWhile p).head? = some c → p c = false
  | [], c, h => by simp [List.dropWhile] at h
  | a :: rest, c, h => by
    cases hp : p a with
    | true =>
      rw [List.dropWhile_cons, if_pos (by simp [hp])] at h
      exact dropWhile_head_not p rest c h
    | false =>
      rw [List.dropWhile_cons, if_neg (by simp [hp])] at h
      simp at h
      rw [← h]
      exact hp

theorem mem_of_mem_dropWhileChar (p : Char → Bool) :
    ∀ (l : List Char) (x : Char), x ∈ l.dropWhile p → x ∈ l
  | [], _, h => by simp [List.dropWhile] at h
  | a :: rest, x, h => by
    cases hp : p a with
    | true =>
      rw [List.dropWhile_cons, if_pos (by simp [hp])] at h
      exact List.mem_cons_of_mem a (mem_of_mem_dropWhileChar p rest x h)
    | false =>
      rw [List.dropWhile_cons, if_neg (by simp [hp])] at h
      exact h

theorem mem_of_mem_pyStrip (l : List Char) (x : Char) (h : x ∈ pyStrip l) : x ∈ l := by
  unfold pyStrip at h
  rw [List.mem_reverse] at h
  have h1 := mem_of_mem_dropWhileChar pyIsSpace _ x h
  rw [List.mem_reverse] at h1
  exact mem_of_mem_dropWhileChar pyIsSpace l x h1

theorem prefix_head_eq (p l : List Char) (t : List Char) (hpl : p ++ t = l)
    (c : Char) (hc : p.head? = some c) : l.head? = some c := by
  cases p with
  | nil => simp at hc
  | cons a ps =>
    simp at hc
    rw [← hpl]
    simp [hc]

theorem head_of_dropWhile_reverse_strip (y : List Char) (c : Char)
    (h : ((y.reverse.dropWhile pyIsSpace).reverse).head? = some c) : y.head? = some c := by
  have hsuff : ∃ t, t ++ (y.reverse.dropWhile pyIsSpace) = y.reverse := by
    induction y.reverse with
    | nil => exact ⟨[], rfl⟩
    | cons a rest ih =>
      cases hp : pyIsSpace a with
      | true =>
        obtain ⟨t, ht⟩ := ih
        refine ⟨a :: t, ?_⟩
        rw [List.dropWhile_cons, if_pos (by simp [hp])]
        simp [ht]
      | false =>
        refine ⟨[], ?_⟩
        rw [List.dropWhile_cons, if_neg (by simp [hp])]
        simp
  obtain ⟨t, ht⟩ := hsuff
  have hy : (y.reverse.dropWhile pyIsSpace).reverse ++ t.reverse = y := by
    have hrev := congrArg List.reverse ht
    simpa using hrev
  exact prefix_head_eq _ y t.reverse hy c h

theorem pyStrip_head (l : List Char) (c : Char) (h : (pyStrip l).head? = some c) :
    pyIsSpace c = false := by
  unfold pyStrip at h
  have h1 := head_of_dropWhile_reverse_strip (l.dropWhile pyIsSpace) c h
  exact dropWhile_head_not pyIsSpace l c h1

theorem dropWhile_append_of_ne_nil (p : Char → Bool) :
    ∀ (x y : List Char), x.dropWhile p ≠ [] → (x ++ y).dropWhile p = x.dropWhile p ++ y
  | [], _, h => absurd rfl h
  | a :: x', y, h => by
    cases hp : p a with
    | true =>
      rw [List.dropWhile_cons, if_pos (by simp [hp])] at h ⊢
      rw [List.cons_append, List.dropWhile_cons, if_pos (by simp [hp])]
      exact dropWhile_append_of_ne_nil p x' y h
    | false =>
      rw [List.cons_append, List.dropWhile_cons, if_neg (by simp [hp]),
        List.dropWhile_cons, if_neg (by simp [hp])]
      simp

theorem dropWhile_append_of_nil (p : Char → Bool) :
    ∀ (x y : List Char), x.dropWhile p = [] → (x ++ y).dropWhile p = y.dropWhile p
  | [], _, _ => by simp
  | a :: x', y, h => by
    cases hp : p a with
    | true =>
      rw [List.dropWhile_cons, if_pos (by simp [hp])] at h
      rw [List.cons_append, List.dropWhile_cons, if_pos (by simp [hp])]
      exact dropWhile_append_of_nil p x' y h
    | false =>
      rw [List.dropWhile_cons, if_neg (by simp [hp])] at h
      exact absurd h (by simp)

theorem rstrip_append_ws (y : List Char) (c : Char) (hc : pyIsSpace c = true) :
    ((y ++ [c]).reverse.dropWhile pyIsSpace).reverse =
      (y.reverse.dropWhile pyIsSpace).reverse := by
  rw [List.reverse_append]
  simp only [List.reverse_cons, List.reverse_nil, List.nil_append, List.singleton_append]
  rw [List.dropWhile_cons, if_pos (by simp [hc])]

theorem pyStrip_append_ws (x : List Char) (c : Char) (hc : pyIsSpace c = true) :
    pyStrip (x ++ [c]) = pyStrip x := by
  unfold pyStrip
  by_cases hnil : x.dropWhile pyIsSpace = []
  · rw [dropWhile_append_of_nil pyIsSpace x [c] hnil, hnil]
    rw [List.dropWhile_cons]
    simp [hc]
  · rw [dropWhile_append_of_ne_nil pyIsSpace x [c] hnil]
    exact rstrip_append_ws (x.dropWhile pyIsSpace) c hc

theorem readlines_shape :
    ∀ (s l : List Char), l ∈ readlines s →
      ('\n' ∉ l) ∨ (∃ b, l = b ++ ['\n'] ∧ '\n' ∉ b)
  | [], l, h => absurd h (by simp [readlines])
  | c :: rest, l, h => by
    by_cases hc : c = '\n'
    · subst hc
      rw [readlines, if_pos rfl] at h
      rcases List.mem_cons.mp h with heq | hmem
      · exact Or.inr ⟨[], by simp [heq]⟩
      · exact readlines_shape rest l hmem
    · rw [readlines, if_neg hc] at h
      cases hr : readlines rest with
      | nil =>
        rw [hr] at h
        simp at h
        subst h
        refine Or.inl ?_
        simp
        exact fun hx => hc hx.symm
      | cons l0 ls =>
        rw [hr] at h
        rcases List.mem_cons.mp h with heq | hmem
        · have h0 : l0 ∈ readlines rest := by rw [hr]; exact List.mem_cons_self l0 ls
          rcases readlines_shape rest l0 h0 with hnl | ⟨b, hb, hbn⟩
          · refine Or.inl ?_
            rw [heq]
            simp [hnl]
            exact fun hx => hc hx.symm
          · refine Or.inr ⟨c :: b, ?_, ?_⟩
            · rw [heq, hb]
              simp
            · simp [hbn]
              exact fun hx => hc hx.symm
        · have h0 : l ∈ readlines rest := by rw [hr]; exact List.mem_cons_of_mem l0 hmem
          exact readlines_shape rest l h0

theorem newline_not_mem_pyStrip (s l : List Char) (h : l ∈ readlines s) :
    '\n' ∉ pyStrip l := by
  rcases readlines_shape s l h with hnl | ⟨b, hb, hbn⟩
  · exact fun hm => hnl (mem_of_mem_pyStrip l '\n' hm)
  · rw [hb, pyStrip_append_ws b '\n' (by simp [pyIsSpace])]
    exact fun hm => hbn (mem_of_mem_pyStrip b '\n' hm)

theorem head?_dropLast (l : List Char) (c : Char) (h : l.dropLast.head? = some c) :
    l.head? = some c := by
  cases l with
  | nil => simp at h
  | cons a t =>
    cases t with
    | nil => simp [List.dropLast] at h
    | cons b t' =>
      rw [List.dropLast_cons₂] at h
      simp at h ⊢
      exact h

theorem pyFind_empty_pat : ∀ s : List Char, pyFind s [] = some 0
  | [] => rfl
  | _ :: _ => by simp [pyFind, List.isPrefixOf]

theorem mem_collect_starts (lines : List (List Char)) (pfx ref : List Char)
    (h : ref ∈ collect_images lines pfx) (hlast : pfx.getLast? ≠ some '"') :
    pfx.isPrefixOf ref = true := by
  rw [mem_collect_images, mem_scanImages] at h
  obtain ⟨l, _, hc⟩ := h
  unfold specLineCandidate at hc
  cases hf : pyFind (pyStrip l) pfx with
  | none => rw [hf] at hc; simp at hc
  | some i =>
    rw [hf] at hc
    simp only [Option.some.injEq] at hc
    have hpre := (pyFind_some (pyStrip l) pfx i hf).1
    by_cases hq : ((pyStrip l).drop i).getLast? = some '"'
    · rw [if_pos hq] at hc
      subst hc
      have hle := isPrefixOf_length pfx _ hpre
      rcases Nat.lt_or_ge pfx.length ((pyStrip l).drop i).length with hlt | hge
      · exact isPrefixOf_dropLast pfx _ hpre hlt
      · have heq : pfx = (pyStrip l).drop i :=
          isPrefixOf_eq_of_length pfx _ hpre (Nat.le_antisymm hle hge)
        rw [← heq] at hq
        exact absurd hq hlast
    · rw [if_neg hq] at hc
      subst hc
      exact hpre

theorem IMAGE_PREFIXES_incomparable :
    ∀ p ∈ IMAGE_PREFIXES, ∀ q ∈ IMAGE_PREFIXES, p.isPrefixOf q = true → p = q := by
  decide

theorem IMAGE_PREFIXES_no_quote_end :
    ∀ p ∈ IMAGE_PREFIXES, p.getLast? ≠ some '"' := by
  decide

/-! The claim theorems. -/

/-- C1 counterexample: the claim says every occurrence of `"ref"` is
replaced.  In the text `"r"r"` the quoted pattern for reference r occurs at
index 0 and, overlapping it, at index 2; the rewrite (Python's
non-overlapping left-to-right `str.replace`) consumes only the occurrence at
index 0, and its output `"r@x"r"` still contains an occurrence of `"r"`
(at index 4) that was not replaced. -/
theorem C1_counterexample :
    replace_images (chars "\"r\"r\"") [(chars "r", chars "x")] = chars "\"r@x\"r\"" ∧
      ¬ NoMatch (quotedP (chars "r")) (chars "\"r@x\"r\"") := by
  constructor
  · decide
  · decide

/-- C1 amended: for every manifest text, digest map and map entry (ref, d),
the rewrite replaces every occurrence of `"ref"` selected by the
left-to-right non-overlapping scan with `"ref@d"` and then every such
occurrence of ref followed by a newline with ref@d followed by that newline;
no other replacement shapes are applied, and all text outside the
substituted regions is preserved byte for byte.  The hypothesis is the
segmentation certificate: per entry, the text splits at the scan-selected
occurrences of the quoted pattern (any number, including zero), and the
pinned intermediate text splits at the scan-selected occurrences of the
newline pattern; the conclusion is the document with every one of those
occurrences pinned and every segment unchanged. -/
theorem C1_amended_pins_every_scan_occurrence (m : List (List Char × List Char))
    (t t' : List Char) (h : RewriteSpec m t t') :
    replace_images t m = t' :=
  replace_images_spec m t t' h

/-- Witness for C1: exactly the claim's scenario `value: "host/img-v1.0:a"`
with map host/img-v1.0:a -> sha256:aaa (one quoted occurrence, zero
newline-anchored occurrences). -/
theorem C1_amended_pins_every_scan_occurrence_witness :
    replace_images (chars "value: \"host/img-v1.0:a\"")
        [(chars "host/img-v1.0:a", chars "sha256:aaa")] =
      chars "value: \"host/img-v1.0:a@sha256:aaa\"" :=
  C1_amended_pins_every_scan_occurrence
    [(chars "host/img-v1.0:a", chars "sha256:aaa")]
    (chars "value: \"host/img-v1.0:a\"")
    (chars "value: \"host/img-v1.0:a@sha256:aaa\"")
    ⟨[chars "value: ", []], [chars "value: \"host/img-v1.0:a@sha256:aaa\""],
      by decide, by decide, by decide, by decide, rfl⟩

/-- C2 counterexample: the claim quantifies over every prefix pair in the map.
Take r1 = host/knative-v1.3.0:name, a strict prefix of
r2 = host/knative-v1.3.0:name-host/knative-v1.3.0:name (of which it is also a
suffix), and a newline-anchored occurrence of r2.  The rewrite substitutes
the shorter r1 inside r2's occurrence, and r2 is not pinned to its own
digest, contradicting the claim. -/
theorem C2_counterexample :
    replace_images
        (chars "image: host/knative-v1.3.0:name-host/knative-v1.3.0:name\n")
        [(chars "host/knative-v1.3.0:name", chars "sha256:aaa"),
         (chars "host/knative-v1.3.0:name-host/knative-v1.3.0:name", chars "sha256:bbb")] =
      chars "image: host/knative-v1.3.0:name-host/knative-v1.3.0:name@sha256:aaa\n" ∧
    chars "image: host/knative-v1.3.0:name-host/knative-v1.3.0:name@sha256:aaa\n" ≠
      chars "image: host/knative-v1.3.0:name-host/knative-v1.3.0:name@sha256:bbb\n" := by
  constructor
  · decide
  · decide

/-- C2 amended: for every pair of references in the digest map where one is a
strict prefix of the other, rewriting replaces each reference only at its own
exact quote-anchored or newline-anchored occurrences -- any number of them,
in any textual order -- and each such occurrence ends up pinned to that
reference's own digest, the shorter never being substituted inside an
occurrence of the longer; the proviso (which the counterexample forces) is
the segmentation certificate: each entry's anchored patterns match only at
that entry's own designated occurrences, which fails exactly in cases such
as the shorter reference also being a suffix of the longer one at end of
line. -/
theorem C2_amended_pins_each_anchor_occurrence (r1 ext d1 d2 t t' : List Char)
    (_hext : ext ≠ [])
    (h : RewriteSpec [(r1, d1), (r1 ++ ext, d2)] t t') :
    replace_images t [(r1, d1), (r1 ++ ext, d2)] = t' :=
  replace_images_spec [(r1, d1), (r1 ++ ext, d2)] t t' h

/-- Witness for C2 at the spec's example pair host/knative-v1.3.0:name and
host/knative-v1.3.0:name-extra, each occurring both quote-anchored and
newline-anchored, with the longer reference's occurrences coming first and
last: every occurrence is pinned to its own digest. -/
theorem C2_amended_pins_each_anchor_occurrence_witness :
    replace_images
        (chars "a: \"host/knative-v1.3.0:name-extra\"\nimage: host/knative-v1.3.0:name\nb: \"host/knative-v1.3.0:name\"\nimage: host/knative-v1.3.0:name-extra\n")
        [(chars "host/knative-v1.3.0:name", chars "sha256:aaa"),
         (chars "host/knative-v1.3.0:name" ++ chars "-extra", chars "sha256:bbb")] =
      chars "a: \"host/knative-v1.3.0:name-extra@sha256:bbb\"\nimage: host/knative-v1.3.0:name@sha256:aaa\nb: \"host/knative-v1.3.0:name@sha256:aaa\"\nimage: host/knative-v1.3.0:name-extra@sha256:bbb\n" :=
  C2_amended_pins_each_anchor_occurrence (chars "host/knative-v1.3.0:name")
    (chars "-extra") (chars "sha256:aaa") (chars "sha256:bbb")
    (chars "a: \"host/knative-v1.3.0:name-extra\"\nimage: host/knative-v1.3.0:name\nb: \"host/knative-v1.3.0:name\"\nimage: host/knative-v1.3.0:name-extra\n")
    (chars "a: \"host/knative-v1.3.0:name-extra@sha256:bbb\"\nimage: host/knative-v1.3.0:name@sha256:aaa\nb: \"host/knative-v1.3.0:name@sha256:aaa\"\nimage: host/knative-v1.3.0:name-extra@sha256:bbb\n")
    (by decide)
    ⟨[chars "a: \"host/knative-v1.3.0:name-extra\"\nimage: host/knative-v1.3.0:name\nb: ",
      chars "\nimage: host/knative-v1.3.0:name-extra\n"],
     [chars "a: \"host/knative-v1.3.0:name-extra\"\nimage: ",
      chars "b: \"host/knative-v1.3.0:name@sha256:aaa\"\nimage: host/knative-v1.3.0:name-extra\n"],
     by decide, by decide, by decide, by decide,
     ⟨[chars "a: ",
       chars "\nimage: host/knative-v1.3.0:name@sha256:aaa\nb: \"host/knative-v1.3.0:name@sha256:aaa\"\nimage: host/knative-v1.3.0:name-extra\n"],
      [chars "a: \"host/knative-v1.3.0:name-extra@sha256:bbb\"\nimage: host/knative-v1.3.0:name@sha256:aaa\nb: \"host/knative-v1.3.0:name@sha256:aaa\"\nimage: ",
       []],
      by decide, by decide, by decide, by decide, rfl⟩⟩

/-- C3: if digest resolution fails for any one of the collected references --
the pull raises, or the digest lookup raises -- then the manifest file is not
modified at all: `execute` only reaches the rewrite step after every
reference has been resolved. -/
theorem C3_failure_leaves_manifest_unchanged (csv : List Char)
    (pull : List Char → Bool) (store : List Char → Option (List (List Char)))
    (h : ∃ ref ∈ collectAll csv, pull ref = false ∨ resolveOne store ref = none) :
    executeModel csv pull store = csv := by
  obtain ⟨ref, hmem, hfail⟩ := h
  unfold executeModel
  rcases hfail with hpull | hres
  · have hall : (collectAll csv).all pull = false := by
      rw [List.all_eq_false]
      exact ⟨ref, hmem, by simp [hpull]⟩
    simp [hall]
  · by_cases hall : (collectAll csv).all pull = true
    · have hnone := create_image_map_none_of_fail store (collectAll csv) ref hmem hres
      simp [hall, hnone]
    · simp [Bool.eq_false_iff.mpr hall]

/-- Witness for C3: a manifest with one collected reference whose store
lookup fails; the manifest text is returned unchanged. -/
theorem C3_failure_leaves_manifest_unchanged_witness :
    executeModel (chars "image: registry.ci.openshift.org/openshift/knative-v1:a\n")
        (fun _ => true) (fun _ => none) =
      chars "image: registry.ci.openshift.org/openshift/knative-v1:a\n" :=
  C3_failure_leaves_manifest_unchanged _ _ _ (by decide)

/-- C6 counterexample: with reference r (no '@') and non-empty digest x, the
text `"r"r"` contains two overlapping quoted occurrences; the first pass
rewrites only the first and leaves a quoted occurrence in its output, which a
second pass with the same map then rewrites, so the second application does
not leave the first pass's output unchanged. -/
theorem C6_counterexample :
    replace_images (replace_images (chars "\"r\"r\"") [(chars "r", chars "x")])
        [(chars "r", chars "x")] ≠
      replace_images (chars "\"r\"r\"") [(chars "r", chars "x")] := by
  decide

/-- C6 amended: rewriting a second time with the same digest map leaves the
first pass's output unchanged provided that output contains no quote-anchored
and no newline-anchored occurrence of any reference of the map (in particular
the pinned form `ref@digest` is never matched as if it were `ref`); the
counterexample shows this proviso is necessary when overlapping occurrences
leave a residual anchored occurrence in the output. -/
theorem C6_amended_idempotent_on_clean_output (t : List Char)
    (m : List (List Char × List Char))
    (h : ∀ e ∈ m, NoMatch (quotedP e.1) (replace_images t m) ∧
      NoMatch (nlP e.1) (replace_images t m)) :
    replace_images (replace_images t m) m = replace_images t m :=
  replace_images_id m (replace_images t m) h

/-- Witness for C6 on the spec scenario text: the pinned output contains no
residual anchored occurrence, and the second pass leaves it unchanged. -/
theorem C6_amended_idempotent_on_clean_output_witness :
    replace_images
        (replace_images (chars "value: \"host/img-v1.0:a\"\n")
          [(chars "host/img-v1.0:a", chars "sha256:aaa")])
        [(chars "host/img-v1.0:a", chars "sha256:aaa")] =
      replace_images (chars "value: \"host/img-v1.0:a\"\n")
        [(chars "host/img-v1.0:a", chars "sha256:aaa")] :=
  C6_amended_idempotent_on_clean_output _ _ (by decide)

/-- C7 counterexample: the claim's hypotheses (references start with a
configured prefix and contain no quote or newline; digests sha256:hex) do not
exclude one reference being a suffix of another.  With r1 a suffix of r2 and
r2 at end of line, the two entry orders produce different documents. -/
theorem C7_counterexample :
    replace_images
        (chars "image: registry.ci.openshift.org/openshift/knative-v1:a-registry.ci.openshift.org/openshift/knative-v1:a\n")
        [(chars "registry.ci.openshift.org/openshift/knative-v1:a", chars "sha256:aa"),
         (chars "registry.ci.openshift.org/openshift/knative-v1:a-registry.ci.openshift.org/openshift/knative-v1:a",
           chars "sha256:bb")] ≠
      replace_images
        (chars "image: registry.ci.openshift.org/openshift/knative-v1:a-registry.ci.openshift.org/openshift/knative-v1:a\n")
        [(chars "registry.ci.openshift.org/openshift/knative-v1:a-registry.ci.openshift.org/openshift/knative-v1:a",
           chars "sha256:bb"),
         (chars "registry.ci.openshift.org/openshift/knative-v1:a", chars "sha256:aa")] := by
  decide

/-- C7 amended: the per-entry replacements are order-independent for every
text and digest map satisfying the non-interference proviso that each entry
order rewrites the text at exactly the entries' own anchored occurrences to
the same fully-pinned document: whenever two entry orders (any permutation,
any number of entries, any number of quote- or newline-anchored occurrences
per entry) both carry the left-to-right segmentation certificate with the
same pinned result, they produce the same document.  The claim's stated
hypotheses do not ensure the proviso (see the counterexample). -/
theorem C7_amended_order_independent (m m' : List (List Char × List Char))
    (t t' : List Char) (_hperm : List.Perm m m')
    (h1 : RewriteSpec m t t') (h2 : RewriteSpec m' t t') :
    replace_images t m = replace_images t m' := by
  rw [replace_images_spec m t t' h1, replace_images_spec m' t t' h2]

/-- Witness for C7: both orders of a two-entry map on a text with a
quote-anchored occurrence of each reference. -/
theorem C7_amended_order_independent_witness :
    replace_images (chars "x: \"host/knative-v1.3.0:name\"\ny: \"host/knative-v1.3.0:other\"\n")
        [(chars "host/knative-v1.3.0:name", chars "sha256:aaa"),
         (chars "host/knative-v1.3.0:other", chars "sha256:bbb")] =
      replace_images (chars "x: \"host/knative-v1.3.0:name\"\ny: \"host/knative-v1.3.0:other\"\n")
        [(chars "host/knative-v1.3.0:other", chars "sha256:bbb"),
         (chars "host/knative-v1.3.0:name", chars "sha256:aaa")] :=
  C7_amended_order_independent
    [(chars "host/knative-v1.3.0:name", chars "sha256:aaa"),
     (chars "host/knative-v1.3.0:other", chars "sha256:bbb")]
    [(chars "host/knative-v1.3.0:other", chars "sha256:bbb"),
     (chars "host/knative-v1.3.0:name", chars "sha256:aaa")]
    (chars "x: \"host/knative-v1.3.0:name\"\ny: \"host/knative-v1.3.0:other\"\n")
    (chars "x: \"host/knative-v1.3.0:name@sha256:aaa\"\ny: \"host/knative-v1.3.0:other@sha256:bbb\"\n")
    (by decide)
    ⟨[chars "x: ", chars "\ny: \"host/knative-v1.3.0:other\"\n"],
     [chars "x: \"host/knative-v1.3.0:name@sha256:aaa\"\ny: \"host/knative-v1.3.0:other\"\n"],
     by decide, by decide, by decide, by decide,
     ⟨[chars "x: \"host/knative-v1.3.0:name@sha256:aaa\"\ny: ", chars "\n"],
      [chars "x: \"host/knative-v1.3.0:name@sha256:aaa\"\ny: \"host/knative-v1.3.0:other@sha256:bbb\"\n"],
      by decide, by decide, by decide, by decide, rfl⟩⟩
    ⟨[chars "x: \"host/knative-v1.3.0:name\"\ny: ", chars "\n"],
     [chars "x: \"host/knative-v1.3.0:name\"\ny: \"host/knative-v1.3.0:other@sha256:bbb\"\n"],
     by decide, by decide, by decide, by decide,
     ⟨[chars "x: ", chars "\ny: \"host/knative-v1.3.0:other@sha256:bbb\"\n"],
      [chars "x: \"host/knative-v1.3.0:name@sha256:aaa\"\ny: \"host/knative-v1.3.0:other@sha256:bbb\"\n"],
      by decide, by decide, by decide, by decide, rfl⟩⟩

/-- C4: the scan processes the text line by line; a line containing the
pattern contributes exactly one candidate -- the remainder of the (stripped)
line from the first occurrence of the pattern on, with exactly one trailing
double quote stripped when present -- and a line not containing it
contributes nothing; `pyFind` returns the first occurrence (it matches at the
returned index and at no earlier one); and a pattern matching zero lines
yields the empty sequence rather than an error. -/
theorem C4_scan_line_by_line (lines : List (List Char)) (pfx : List Char) :
    scanImages lines pfx = lines.filterMap (fun l => specLineCandidate pfx (pyStrip l)) ∧
    (∀ l i, pyFind (pyStrip l) pfx = some i →
      pfx.isPrefixOf ((pyStrip l).drop i) = true ∧
      ∀ j < i, pfx.isPrefixOf ((pyStrip l).drop j) = false) ∧
    ((∀ l ∈ lines, pyFind (pyStrip l) pfx = none) → scanImages lines pfx = []) := by
  refine ⟨scanImages_eq_filterMap lines pfx, ?_, ?_⟩
  · intro l i h
    exact pyFind_some (pyStrip l) pfx i h
  · intro hall
    rw [scanImages_eq_filterMap lines pfx]
    rw [List.filterMap_eq_nil_iff]
    intro l hl
    simp [specLineCandidate, hall l hl]

/-- Witness for C4: one matching and one non-matching manifest. -/
theorem C4_scan_line_by_line_witness :
    scanImages (readlines (chars "x\nimage: host/img:a\n")) (chars "host/") =
      (readlines (chars "x\nimage: host/img:a\n")).filterMap
        (fun l => specLineCandidate (chars "host/") (pyStrip l)) ∧
    scanImages (readlines (chars "nothing here\n")) (chars "host/") = [] :=
  ⟨(C4_scan_line_by_line (readlines (chars "x\nimage: host/img:a\n")) (chars "host/")).1,
    (C4_scan_line_by_line (readlines (chars "nothing here\n")) (chars "host/")).2.2
      (by decide)⟩

/-- C5: the dedupe step returns a sequence with no duplicates, sorted
ascending lexicographically, and the output is a pure function of the set of
distinct input elements: two inputs with the same members give identical
outputs regardless of order or duplication count. -/
theorem C5_dedupe_sorted_set_function (l l' : List (List Char)) :
    (pySortedSet l).Nodup ∧ (pySortedSet l).Sorted RefLe ∧
      ((∀ x, x ∈ l ↔ x ∈ l') → pySortedSet l = pySortedSet l') :=
  ⟨pySortedSet_nodup l, pySortedSet_sorted l, pySortedSet_ext l l'⟩

/-- Witness for C5 on two lists with equal member sets but different order
and duplication count. -/
theorem C5_dedupe_sorted_set_function_witness :
    (pySortedSet [chars "b", chars "a", chars "b"]).Nodup ∧
      (pySortedSet [chars "b", chars "a", chars "b"]).Sorted RefLe ∧
      pySortedSet [chars "b", chars "a", chars "b"] = pySortedSet [chars "a", chars "b"] :=
  ⟨(C5_dedupe_sorted_set_function [chars "b", chars "a", chars "b"] [chars "a", chars "b"]).1,
    (C5_dedupe_sorted_set_function [chars "b", chars "a", chars "b"] [chars "a", chars "b"]).2.1,
    (C5_dedupe_sorted_set_function [chars "b", chars "a", chars "b"] [chars "a", chars "b"]).2.2
      (by intro x; constructor <;> intro h <;> simp at h <;> rcases h with h | h <;> simp [h])⟩

/-- C8 counterexample: a line with further content after the reference: the
extracted reference is the whole remainder of the line and contains an
embedded space, contradicting the claimed no-whitespace invariant. -/
theorem C8_counterexample :
    ∃ ref ∈ collectAll (chars "image: registry.ci.openshift.org/openshift/knative-v1:a b\n"),
      ' ' ∈ ref := by
  decide

/-- C8 amended: every reference in the working set collected by `execute`
starts with exactly one of the configured prefixes (the whitespace and
trailing-quote part of the claim fails, see the counterexample). -/
theorem C8_amended_starts_with_one_pfx (csv ref : List Char)
    (h : ref ∈ collectAll csv) :
    ∃ p ∈ IMAGE_PREFIXES, p.isPrefixOf ref = true ∧
      ∀ q ∈ IMAGE_PREFIXES, q.isPrefixOf ref = true → q = p := by
  have hmem : ∃ p ∈ IMAGE_PREFIXES, ref ∈ collect_images (readlines csv) p := by
    unfold collectAll at h
    simp only [IMAGE_PREFIXES, List.foldl_cons, List.foldl_nil, List.nil_append] at h
    rcases List.mem_append.mp h with h12 | h3
    · rcases List.mem_append.mp h12 with h1 | h2
      · exact ⟨_, by simp [IMAGE_PREFIXES], h1⟩
      · exact ⟨_, by simp [IMAGE_PREFIXES], h2⟩
    · exact ⟨_, by simp [IMAGE_PREFIXES], h3⟩
  obtain ⟨p, hp, hmem'⟩ := hmem
  have hpref : p.isPrefixOf ref = true :=
    mem_collect_starts (readlines csv) p ref hmem' (IMAGE_PREFIXES_no_quote_end p hp)
  refine ⟨p, hp, hpref, ?_⟩
  intro q hq hqpref
  rcases isPrefixOf_comparable ref q p hqpref hpref with hqp | hpq
  · exact IMAGE_PREFIXES_incomparable q hq p hp hqp
  · exact (IMAGE_PREFIXES_incomparable p hp q hq hpq).symm

/-- Witness for C8 on a manifest with one collected reference. -/
theorem C8_amended_starts_with_one_pfx_witness :
    ∃ p ∈ IMAGE_PREFIXES,
      p.isPrefixOf (chars "registry.ci.openshift.org/openshift/knative-v1:a") = true ∧
      ∀ q ∈ IMAGE_PREFIXES,
        q.isPrefixOf (chars "registry.ci.openshift.org/openshift/knative-v1:a") = true →
          q = p :=
  C8_amended_starts_with_one_pfx
    (chars "image: registry.ci.openshift.org/openshift/knative-v1:a\n")
    (chars "registry.ci.openshift.org/openshift/knative-v1:a") (by decide)

/-- C9: when the store reports a non-empty RepoDigests list for a reference
that `create_image_map` processes successfully, the map binds the reference
to the digest component -- the substring after the `'@'` separator -- of the
head entry of that list (the most recently recorded one, per the store model
described at `resolveOne`). -/
theorem C9_resolves_head_digest (images : List (List Char))
    (store : List Char → Option (List (List Char)))
    (m : List (List Char × List Char)) (ref n d : List Char) (rest : List (List Char))
    (hmap : create_image_map images store = some m)
    (href : ref ∈ images)
    (hstore : store ref = some ((n ++ '@' :: d) :: rest))
    (hn : '@' ∉ n) (hd : '@' ∉ d) :
    lookupRef m ref = some d := by
  obtain ⟨d', hres, hlook⟩ := create_image_map_success store images m hmap ref href
  rw [resolveOne_head store ref n d rest hstore hn hd] at hres
  have hdd : d = d' := by
    simpa using hres
  rw [← hdd] at hlook
  exact hlook

/-- Witness for C9: a one-reference store with one recorded repo-digest. -/
theorem C9_resolves_head_digest_witness :
    lookupRef [(chars "img", chars "sha256:abc")] (chars "img") = some (chars "sha256:abc") :=
  C9_resolves_head_digest [chars "img"]
    (fun _ => some [chars "reg/img:tag" ++ '@' :: chars "sha256:abc"])
    [(chars "img", chars "sha256:abc")] (chars "img") (chars "reg/img:tag")
    (chars "sha256:abc") [] (by decide) (by decide) rfl (by decide) (by decide)

/-- C10 counterexample: a reference written with a space before its closing
quote: the scan strips the quote and the extracted reference keeps a trailing
space, contradicting the claim that no extracted reference ever carries
trailing whitespace. -/
theorem C10_counterexample :
    ∃ ref ∈ collect_images (readlines (chars "value: \"host/img:a \"\n"))
        (chars "host/img"), ref.getLast? = some ' ' := by
  decide

/-- C10 amended: the scan strips each line before matching, so an extracted
reference never starts with whitespace (when the search pattern does not) and
never contains a line-terminator character; trailing whitespace is possible
only when exposed by stripping a trailing quote (see the counterexample). -/
theorem C10_amended_strip_before_match (text pfx ref : List Char)
    (h : ref ∈ collect_images (readlines text) pfx)
    (hp : ∀ c0, pfx.head? = some c0 → pyIsSpace c0 = false) :
    (∀ c1, ref.head? = some c1 → pyIsSpace c1 = false) ∧ '\n' ∉ ref := by
  rw [mem_collect_images, mem_scanImages] at h
  obtain ⟨l, hl, hc⟩ := h
  unfold specLineCandidate at hc
  cases hf : pyFind (pyStrip l) pfx with
  | none => rw [hf] at hc; simp at hc
  | some i =>
    rw [hf] at hc
    simp only [Option.some.injEq] at hc
    have hsubchars : ∀ x, x ∈ ref → x ∈ pyStrip l := by
      intro x hx
      have hx2 : x ∈ (pyStrip l).drop i := by
        by_cases hq : ((pyStrip l).drop i).getLast? = some '"'
        · rw [if_pos hq] at hc
          rw [← hc] at hx
          exact List.mem_of_mem_dropLast hx
        · rw [if_neg hq] at hc
          rw [← hc] at hx
          exact hx
      exact List.mem_of_mem_drop hx2
    refine ⟨?_, ?_⟩
    · intro c1 hc1
      have hcand : ((pyStrip l).drop i).head? = some c1 := by
        by_cases hq : ((pyStrip l).drop i).getLast? = some '"'
        · rw [if_pos hq] at hc
          rw [← hc] at hc1
          exact head?_dropLast _ c1 hc1
        · rw [if_neg hq] at hc
          rw [← hc] at hc1
          exact hc1
      cases hpfx : pfx with
      | nil =>
        have hi0 : pyFind (pyStrip l) ([] : List Char) = some 0 := pyFind_empty_pat _
        rw [hpfx] at hf
        rw [hf] at hi0
        have hii : i = 0 := by
          have h0i : (0 : Nat) = i := by simpa using hi0.symm
          exact h0i.symm
        rw [hii, List.drop_zero] at hcand
        exact pyStrip_head l c1 hcand
      | cons c0 pfx' =>
        have hpre := (pyFind_some (pyStrip l) pfx i hf).1
        rw [hpfx] at hpre
        have hhead := isPrefixOf_head c0 pfx' _ hpre
        rw [hcand] at hhead
        have hcc : c1 = c0 := by simpa using hhead
        rw [hcc]
        exact hp c0 (by simp [hpfx])
    · intro hmem
      exact newline_not_mem_pyStrip text l hl (hsubchars '\n' hmem)

/-- Witness for C10 on a reference at end of line. -/
theorem C10_amended_strip_before_match_witness :
    (∀ c1, (chars "host/img:a").head? = some c1 → pyIsSpace c1 = false) ∧
      '\n' ∉ chars "host/img:a" :=
  C10_amended_strip_before_match (chars "image: host/img:a\n") (chars "host/img")
    (chars "host/img:a") (by decide) (by decide)

end SMB
